import Mathlib

/-!
Shallow embedding of the Tailwind oxide scanner
(crates/oxide/src/lib.rs): the scanning orchestrator that resolves glob
sources, tracks per-file modification times, and accumulates extracted
utility-class candidates.

Modelling conventions:
- File contents are byte lists (`List Nat`, each entry < 256 for real inputs).
- Paths, glob bases and patterns are `String`s (Rust `PathBuf` / `String`);
  `Path::to_str` therefore always succeeds in the model.
- The filesystem and the external crates (bexpand, globset, and the sibling
  repository modules crate::parser, crate::glob, crate::scanner that are not
  part of the given source file) are abstracted into an `Env` record of
  deterministic functions; the spec describes them as pure capabilities.
- `SystemTime` is a `Nat`; `SystemTime::now()` is an explicit `now` argument.
- Rust's parallel map/reduce (rayon) is modelled by the equivalent
  sequential fold: the reduction is an associative set union, so the
  sequential fold computes the same result.
- `FxHashSet<String>` is modelled as a duplicate-free `List String` in
  insertion order.  The hash set's iteration order is unspecified in Rust,
  but every observation the source makes of the set is order-insensitive
  (membership tests, `extend`, and a final `sort`), so the list model is
  observationally faithful.
- Rust `Vec<String>::sort()` orders strings by their UTF-8 bytes,
  lexicographically; the model sorts with `insertionSort` over exactly that
  byte-wise order (`CandLe`), which yields the same unique sorted list.
-/

namespace Oxide

/-- A byte buffer, as produced by Rust `std::fs::read` / `String::into_bytes`. -/
abbrev Bytes := List Nat

/-- UTF-8 encoding of one code point, mirroring Rust `String::into_bytes`
byte layout. -/
def charUtf8 (c : Char) : Bytes :=
  let n := c.toNat
  if n < 0x80 then [n]
  else if n < 0x800 then
    [0xC0 ||| (n >>> 6), 0x80 ||| (n &&& 0x3F)]
  else if n < 0x10000 then
    [0xE0 ||| (n >>> 12), 0x80 ||| ((n >>> 6) &&& 0x3F), 0x80 ||| (n &&& 0x3F)]
  else
    [0xF0 ||| (n >>> 18), 0x80 ||| ((n >>> 12) &&& 0x3F),
     0x80 ||| ((n >>> 6) &&& 0x3F), 0x80 ||| (n &&& 0x3F)]

/-- Rust `String::into_bytes`: UTF-8 bytes of a string. -/
def strBytes (s : String) : Bytes :=
  s.data.foldr (fun c acc => charUtf8 c ++ acc) []

/-- Lexicographic order on byte buffers: the order Rust's `Ord for Vec<u8>`
and `Ord for String` (UTF-8 bytes) use. -/
def bytesLe : Bytes → Bytes → Bool
  | [], _ => true
  | _ :: _, [] => false
  | a :: as, b :: bs =>
    if a < b then true
    else if a = b then bytesLe as bs
    else false

/-- Rust `String` ordering: byte-wise lexicographic on the UTF-8 encoding. -/
def candLe (a b : String) : Bool :=
  bytesLe (strBytes a) (strBytes b)

/-- The byte-wise lexicographic order as a decidable relation, used to state
sortedness of surfaced candidate lists. -/
def CandLe (a b : String) : Prop :=
  candLe a b = true

instance : DecidableRel CandLe := fun a b =>
  inferInstanceAs (Decidable (candLe a b = true))

theorem bytesLe_total : ∀ a b : Bytes, bytesLe a b = true ∨ bytesLe b a = true
  | [], _ => Or.inl rfl
  | _ :: _, [] => Or.inr rfl
  | a :: as, b :: bs => by
    by_cases hab : a < b
    · left; simp [bytesLe, hab]
    · by_cases hba : b < a
      · right; simp [bytesLe, hba]
      · have hev : a = b := Nat.le_antisymm (Nat.not_lt.mp hba) (Nat.not_lt.mp hab)
        subst hev
        rcases bytesLe_total as bs with h | h
        · left; simp [bytesLe, h]
        · right; simp [bytesLe, h]

theorem bytesLe_cons_iff {a b : Nat} {as bs : Bytes} :
    bytesLe (a :: as) (b :: bs) = true ↔ a < b ∨ (a = b ∧ bytesLe as bs = true) := by
  by_cases h1 : a < b <;> by_cases h2 : a = b <;> simp [bytesLe, h1, h2]

theorem bytesLe_trans :
    ∀ a b c : Bytes, bytesLe a b = true → bytesLe b c = true → bytesLe a c = true
  | [], _, _, _, _ => rfl
  | _ :: _, [], _, h1, _ => by simp [bytesLe] at h1
  | _ :: _, _ :: _, [], _, h2 => by simp [bytesLe] at h2
  | a :: as, b :: bs, c :: cs, h1, h2 => by
    rw [bytesLe_cons_iff] at h1 h2 ⊢
    rcases h1 with h1 | ⟨rfl, h1⟩
    · rcases h2 with h2 | ⟨rfl, _⟩
      · exact Or.inl (Nat.lt_trans h1 h2)
      · exact Or.inl h1
    · rcases h2 with h2 | ⟨rfl, h2⟩
      · exact Or.inl h2
      · exact Or.inr ⟨rfl, bytesLe_trans as bs cs h1 h2⟩

instance : IsTotal String CandLe :=
  ⟨fun a b => bytesLe_total (strBytes a) (strBytes b)⟩

instance : IsTrans String CandLe :=
  ⟨fun a b c => bytesLe_trans (strBytes a) (strBytes b) (strBytes c)⟩

/-- Rust `Vec<String>::sort()` on the model's candidate lists: sorting by
the byte-wise lexicographic order.  On the duplicate-free lists the scanner
maintains, this produces the same list as any other sort. -/
def sortCandidates (l : List String) : List String :=
  l.insertionSort CandLe

/-- Mirrors `struct GlobEntry { base: String, pattern: String }`. -/
structure GlobEntry where
  base : String
  pattern : String
deriving DecidableEq, Repr

/-- Mirrors `struct ChangedContent { file: Option<PathBuf>, content: Option<String> }`. -/
structure ChangedContent where
  file : Option String
  content : Option String
deriving DecidableEq, Repr

/-- Abstract filesystem: `std::fs::read`, `fs::metadata(..).modified()`
(`none` when the stat or mtime lookup fails), and `Path::is_dir`
(Rust returns `false`, never an error, for non-existent paths). -/
structure FileSystem where
  read : String → Option Bytes
  mtime : String → Option Nat
  isDir : String → Bool

/-- One entry yielded by `resolve_paths` (an ignore-rule honoring walker):
`fileType = none` models `entry.file_type()` returning `None`
(unknown type, permission error); `some b` tells whether it is a regular file. -/
structure DirEntry where
  fileType : Option Bool
  path : String

/-- External capabilities used by the orchestrator.  `fs` is the disk;
`bexpand` is the bexpand crate (brace expansion; `none` models a pattern
that fails to parse as an alternation expression, `some ps` the list of
successfully expanded patterns); `globNew` is `globset::Glob::new` followed
by `compile_matcher` (`none` models a malformed glob); `resolvePaths` is
`crate::scanner::allowed_paths::resolve_paths`; `detect` is
`DetectSources::new(path).detect()`; `hoist` is
`crate::glob::hoist_static_glob_parts`; `optimize` is
`crate::glob::optimize_patterns`.

Modelled from the spec: the extractor `crate::parser::Extractor` is not in
the given source file.  Per the spec, `unique(buffer)` returns a
deduplicated, order-independent SET of candidates — modelled as the field
`uniq` returning the set's elements as a list (the Rust conversion of each
returned byte slice back to a `String` is folded into the field, justified
by the extractor's valid-UTF-8 contract); the downstream set union
deduplicates, so list order and duplicates in `uniq`'s output are
unobservable.  `with_positions(buffer)` returns an ordered
(candidate, byte offset) sequence — the field `extractPos`. -/
structure Env where
  fs : FileSystem
  bexpand : String → Option (List String)
  globNew : String → Option (String → Bool)
  resolvePaths : String → List DirEntry
  detect : String → List String × List GlobEntry
  hoist : List GlobEntry → List GlobEntry
  optimize : List GlobEntry → List GlobEntry
  uniq : Bytes → List String
  extractPos : Bytes → List (String × Nat)

/-- Mirrors `struct Scanner`: sources, ready flag, resolved files and globs,
mtime map (`FxHashMap<PathBuf, SystemTime>` as a partial function), and the
accumulated candidate set (`FxHashSet<String>` as an insertion-ordered,
duplicate-free list). -/
structure Scanner where
  sources : Option (List GlobEntry)
  ready : Bool
  files : List String
  globs : List GlobEntry
  mtimes : String → Option Nat
  candidates : List String

/-- Mirrors `Scanner::new(sources)`: everything else `Default::default()`. -/
def Scanner.new (sources : Option (List GlobEntry)) : Scanner :=
  { sources := sources, ready := false, files := [], globs := [],
    mtimes := fun _ => none, candidates := [] }

/-- Rust `HashSet::extend`: insert each new element unless already present. -/
def extendUnique (s : List String) (new : List String) : List String :=
  new.foldl (fun acc c => if c ∈ acc then acc else acc ++ [c]) s

/-- Rust `str::ends_with` on whole-string suffixes. -/
def endsWithS (s suffix : String) : Bool :=
  suffix.data.isSuffixOf s.data

/-- Rust `str::trim_end_matches` on `List Char`: repeatedly removes the
suffix while the string still ends with it.  The fuel argument only bounds
the number of removals; each removal of the non-empty suffix strips at
least one character, so `s.length` removals always suffice and the fuel
never runs out when called through `trimEndMatchesS`. -/
def trimEndMatchesAux (suffix : List Char) : Nat → List Char → List Char
  | 0, s => s
  | fuel + 1, s =>
    if !suffix.isEmpty && suffix.isSuffixOf s then
      trimEndMatchesAux suffix fuel (s.take (s.length - suffix.length))
    else s

/-- Rust `str::trim_end_matches`. -/
def trimEndMatchesS (s suffix : String) : String :=
  ⟨trimEndMatchesAux suffix.data s.data.length s.data⟩

/-- Rust `PathBuf::from(base).join(pattern)` for a relative `pattern`
(the model does not special-case absolute joins; the source only joins
bases with glob patterns). -/
def joinPath (base p : String) : String :=
  base ++ "/" ++ p

/-- Splitting a character list on a separator, mirroring Rust component
and extension splitting: the empty list splits into one empty component. -/
def splitOnChar (sep : Char) (l : List Char) : List (List Char) :=
  l.foldr
    (fun c acc =>
      match acc with
      | [] => [[c]]
      | cur :: rest => if c = sep then [] :: cur :: rest else (c :: cur) :: rest)
    [[]]

/-- Rust `Path::extension().map(|x| x.to_str())` for string paths: the part
of the final path component after its last dot; `none` when there is no
dot, or when the component starts with its only dot (hidden files). -/
def pathExtension (p : String) : Option String :=
  let name :=
    match (splitOnChar '/' p.data).reverse with
    | [] => []
    | n :: _ => n
  match splitOnChar '.' name with
  | [] => none
  | [_] => none
  | first :: rest =>
    if first.isEmpty && rest.length == 1 then none
    else rest.getLast?.map (fun l => ⟨l⟩)

/-- bstr `ByteSlice::replace`: replaces every non-overlapping occurrence of
`pat` (left to right) with `rep`.  The fuel argument only bounds recursion
depth; every step consumes at least one byte of `s`, so `s.length` steps
always suffice and the fuel never runs out when called through
`replaceSeq`. -/
def replaceSeqAux (pat rep : Bytes) : Nat → Bytes → Bytes
  | 0, s => s
  | _ + 1, [] => []
  | fuel + 1, c :: rest =>
    if !pat.isEmpty && pat.isPrefixOf (c :: rest) then
      rep ++ replaceSeqAux pat rep fuel ((c :: rest).drop pat.length)
    else
      c :: replaceSeqAux pat rep fuel rest

/-- bstr `ByteSlice::replace`. -/
def replaceSeq (pat rep : Bytes) (s : Bytes) : Bytes :=
  replaceSeqAux pat rep s.length s

/-- Mirrors `read_changed_content` (lib.rs lines 319-343): inline content is
returned first when present; otherwise the file is read from disk (an
unreadable file yields `none`, which `read_all_files` drops), and content
read from a file whose extension is `svelte` has every occurrence of
the bytes of the string consisting of a space followed by `class:`
replaced by a single space. -/
def readChangedContent (fs : FileSystem) (c : ChangedContent) : Option Bytes :=
  match c.content with
  | some content => some (strBytes content)
  | none =>
    match c.file with
    | none => none
    | some file =>
      match fs.read file with
      | none => none
      | some content =>
        match pathExtension file with
        | none => some content
        | some ext =>
          if ext = "svelte" then
            some (replaceSeq (strBytes " class:") (strBytes " ") content)
          else some content

/-- Mirrors `read_all_files`: read every item, dropping unreadable ones
(`filter_map`).  The rayon parallel iterator preserves input order in
`collect`, so the sequential `filterMap` is the same function. -/
def readAllFiles (fs : FileSystem) (changed : List ChangedContent) : List Bytes :=
  changed.filterMap (readChangedContent fs)

/-- Mirrors `parse_all_blobs`: extract the unique-candidate set of each
blob, union them all (the rayon `reduce` with `extend` is an associative,
commutative set union starting from the empty set), and sort the result
by the byte-wise order `Vec<String>::sort` uses. -/
def parseAllBlobs (env : Env) (blobs : List Bytes) : List String :=
  sortCandidates ((blobs.map env.uniq).foldl extendUnique [])

/-- Mirrors the brace-expansion step of `Scanner::scan_sources`
(lib.rs lines 224-241): a pattern that fails to parse as a bexpand
expression passes the entry through unchanged; otherwise one entry per
successfully expanded pattern, with the base unchanged. -/
def expandSource (env : Env) (source : GlobEntry) : List GlobEntry :=
  match env.bexpand source.pattern with
  | none => [source]
  | some pats => pats.map (fun p => { base := source.base, pattern := p })

/-- Mirrors the partition predicate of `Scanner::scan_sources`
(lib.rs lines 245-258): a source is promoted to auto source detection when
its pattern ends with the recursive wildcard, or when base joined with the
pattern is an existing directory (`is_dir` is `false`, never an error, for
non-existent paths). -/
def autoDetectEligible (fs : FileSystem) (source : GlobEntry) : Bool :=
  if endsWithS source.pattern "**/*" then true
  else if fs.isDir (joinPath source.base source.pattern) then true
  else false

/-- Mirrors the explicit-glob matching loop body of `Scanner::scan_sources`
(lib.rs lines 284-309): compile base/pattern into one glob (a malformed
glob contributes nothing), walk the base, keep regular files whose path the
glob matches; entries of unknown file type are skipped. -/
def matchGlobSource (env : Env) (source : GlobEntry) : List String :=
  match env.globNew (source.base ++ "/" ++ source.pattern) with
  | none => []
  | some matcher =>
    (env.resolvePaths source.base).filterMap (fun entry =>
      match entry.fileType with
      | none => none
      | some isFile =>
        if isFile then
          if matcher entry.path then some entry.path else none
        else none)

/-- Mirrors `Scanner::scan_sources` (lib.rs lines 214-316).  The Rust code
mutates `self.files` / `self.globs` in sequence: the auto-detect loop
extends both, the matching loop pushes matched files, then the hoisted
globs are appended and the whole glob list re-optimized.  The model builds
the same final lists.  `partition` keeps order, predicate-true entries
first, so the two `filter`s reproduce its two halves. -/
def scanSources (env : Env) (st : Scanner) : Scanner :=
  match st.sources with
  | none => st
  | some sources =>
    if sources.isEmpty then st
    else
      let expanded := sources.flatMap (expandSource env)
      let autoSources := expanded.filter (fun s => autoDetectEligible env.fs s)
      let globSources := expanded.filter (fun s => !autoDetectEligible env.fs s)
      let autoResults := autoSources.map (fun s =>
        env.detect (joinPath s.base (trimEndMatchesS s.pattern "**/*")))
      let autoFiles := (autoResults.map Prod.fst).flatten
      let autoGlobs := (autoResults.map Prod.snd).flatten
      let hoisted := env.hoist globSources
      let matched := hoisted.flatMap (matchGlobSource env)
      { st with
        files := st.files ++ autoFiles ++ matched,
        globs := env.optimize (st.globs ++ autoGlobs ++ hoisted) }

/-- Mirrors `Scanner::prepare` (lib.rs lines 203-211): a no-op when already
ready, otherwise resolve sources and flip the ready flag. -/
def prepare (env : Env) (st : Scanner) : Scanner :=
  if st.ready then st
  else { scanSources env st with ready := true }

/-- The mtime-tracking loop of `Scanner::compute_candidates`
(lib.rs lines 167-193): for each file, its current mtime
(`SystemTime::now()` when the stat fails), recorded over the previous
entry; the file is queued when the recorded time changed or the file was
never seen.  Returns the queued `ChangedContent` list and the updated map. -/
def changedStep (fs : FileSystem) (now : Nat)
    (acc : List ChangedContent × (String → Option Nat)) (path : String) :
    List ChangedContent × (String → Option Nat) :=
  let current := (fs.mtime path).getD now
  let previous := acc.2 path
  let shouldScan :=
    match previous with
    | some prev => prev != current
    | none => true
  ( if shouldScan then
      acc.1 ++ [{ file := some path, content := none }]
    else acc.1,
    fun q => if q = path then some current else acc.2 q )

/-- The whole mtime-tracking loop: fold `changedStep` over the frozen file
list starting from an empty queue and the scanner's current map. -/
def changedOf (fs : FileSystem) (now : Nat) (files : List String)
    (mtimes : String → Option Nat) :
    List ChangedContent × (String → Option Nat) :=
  files.foldl (changedStep fs now) ([], mtimes)

/-- Mirrors `Scanner::compute_candidates` (lib.rs lines 166-199): queue
changed files, and when any were queued, extract their candidates and
extend the accumulated set. -/
def computeCandidates (env : Env) (now : Nat) (st : Scanner) : Scanner :=
  let r := changedOf env.fs now st.files st.mtimes
  let st := { st with mtimes := r.2 }
  if r.1.isEmpty then st
  else
    { st with
      candidates :=
        extendUnique st.candidates (parseAllBlobs env (readAllFiles env.fs r.1)) }

/-- Mirrors `Scanner::scan` (lib.rs lines 96-107): ensure readiness,
recompute candidates from changed files, return the accumulated set as a
sorted list, paired with the post-call state. -/
def scan (env : Env) (now : Nat) (st : Scanner) : List String × Scanner :=
  let st := prepare env st
  let st := computeCandidates env now st
  (sortCandidates st.candidates, st)

/-- The newly-seen filter loop of `Scanner::scan_content`
(lib.rs lines 114-121): skip candidates already in the set, insert and
emit the rest in order. -/
def scanContentLoop (cands : List String) (s : List String) :
    List String × List String :=
  cands.foldl
    (fun acc c => if c ∈ acc.2 then acc else (acc.1 ++ [c], acc.2 ++ [c]))
    ([], s)

/-- Mirrors `Scanner::scan_content` (lib.rs lines 110-124): ensure
readiness, extract candidates from all items, return those not already
accumulated while inserting them. -/
def scanContent (env : Env) (st : Scanner) (changed : List ChangedContent) :
    List String × Scanner :=
  let st := prepare env st
  let cands := parseAllBlobs env (readAllFiles env.fs changed)
  let r := scanContentLoop cands st.candidates
  (r.1, { st with candidates := r.2 })

/-- Mirrors `Scanner::get_candidates_with_positions` (lib.rs lines
127-146): ensure readiness, read/normalize the single item
(`unwrap_or_default` turns a dropped item into the empty buffer), and run
positional extraction; the UTF-8 reinterpretation of the returned slices is
folded into `Env.extractPos`. -/
def getCandidatesWithPositions (env : Env) (st : Scanner)
    (changed : ChangedContent) : List (String × Nat) × Scanner :=
  let st := prepare env st
  let content := (readChangedContent env.fs changed).getD []
  (env.extractPos content, st)

/-- Mirrors `Scanner::get_files` (lib.rs lines 149-156); `to_string_lossy`
is the identity on the model's string paths. -/
def getFiles (env : Env) (st : Scanner) : List String × Scanner :=
  let st := prepare env st
  (st.files, st)

/-- Mirrors `Scanner::get_globs` (lib.rs lines 159-163). -/
def getGlobs (env : Env) (st : Scanner) : List GlobEntry × Scanner :=
  let st := prepare env st
  (st.globs, st)

/-! Small concrete instances used to evaluate the development on closed
inputs. -/

/-- A one-file filesystem: file a with content byte 104 and mtime 5. -/
def sampleFs : FileSystem :=
  { read := fun p => if p = "a" then some [104] else none,
    mtime := fun p => if p = "a" then some 5 else none,
    isDir := fun _ => false }

/-- A concrete environment over `sampleFs` whose extractor recognizes the
candidate x exactly in the one-byte blob of file a, and whose brace
expander rejects every pattern. -/
def sampleEnv : Env :=
  { fs := sampleFs,
    bexpand := fun _ => none,
    globNew := fun _ => none,
    resolvePaths := fun _ => [],
    detect := fun _ => ([], []),
    hoist := fun l => l,
    optimize := fun l => l,
    uniq := fun b => if b = [104] then ["x"] else [],
    extractPos := fun _ => [] }

/-- A not-yet-ready scanner without sources whose frozen file list is the
single file a. -/
def sampleScanner : Scanner :=
  { sources := none, ready := false, files := ["a"], globs := [],
    mtimes := fun _ => none, candidates := [] }

/-- A filesystem holding a svelte file whose on-disk bytes contain the
class-shorthand marker. -/
def svelteFs : FileSystem :=
  { read := fun p => if p = "a.svelte" then some (strBytes "q class:x") else none,
    mtime := fun _ => none,
    isDir := fun _ => false }

/-! Helper lemmas. -/

theorem scanSources_ready (env : Env) (st : Scanner) :
    (scanSources env st).ready = st.ready := by
  unfold scanSources
  cases st.sources with
  | none => rfl
  | some sources =>
    dsimp only
    split <;> rfl

theorem scanSources_candidates (env : Env) (st : Scanner) :
    (scanSources env st).candidates = st.candidates := by
  unfold scanSources
  cases st.sources with
  | none => rfl
  | some sources =>
    dsimp only
    split <;> rfl

theorem prepare_ready (env : Env) (st : Scanner) :
    (prepare env st).ready = true := by
  unfold prepare
  split
  · assumption
  · rfl

theorem prepare_candidates (env : Env) (st : Scanner) :
    (prepare env st).candidates = st.candidates := by
  unfold prepare
  split
  · rfl
  · exact scanSources_candidates env st

theorem prepare_eq_of_ready (env : Env) {st : Scanner} (h : st.ready = true) :
    prepare env st = st := by
  simp [prepare, h]

theorem computeCandidates_ready (env : Env) (now : Nat) (st : Scanner) :
    (computeCandidates env now st).ready = st.ready := by
  unfold computeCandidates
  dsimp only
  split <;> rfl

theorem computeCandidates_files (env : Env) (now : Nat) (st : Scanner) :
    (computeCandidates env now st).files = st.files := by
  unfold computeCandidates
  dsimp only
  split <;> rfl

theorem computeCandidates_mtimes (env : Env) (now : Nat) (st : Scanner) :
    (computeCandidates env now st).mtimes
      = (changedOf env.fs now st.files st.mtimes).2 := by
  unfold computeCandidates
  dsimp only
  split <;> rfl

theorem extendUnique_subset : ∀ (l s : List String), s ⊆ extendUnique s l
  | [], s => by simp [extendUnique]
  | c :: l, s => by
    rw [extendUnique, List.foldl_cons]
    refine List.Subset.trans ?_ (extendUnique_subset l _)
    by_cases h : c ∈ s
    · simp [h]
    · simp only [h, if_false]
      exact List.subset_append_left s [c]

theorem extendUnique_nodup : ∀ (l s : List String), s.Nodup → (extendUnique s l).Nodup
  | [], s, h => by simpa [extendUnique] using h
  | c :: l, s, h => by
    rw [extendUnique, List.foldl_cons]
    refine extendUnique_nodup l _ ?_
    by_cases hc : c ∈ s
    · simpa [hc] using h
    · simp only [hc, if_false]
      simp [List.nodup_append, h, hc]

theorem sortCandidates_sorted (l : List String) :
    List.Sorted CandLe (sortCandidates l) :=
  List.sorted_insertionSort CandLe l

theorem sortCandidates_nodup {l : List String} (h : l.Nodup) :
    (sortCandidates l).Nodup :=
  ((List.perm_insertionSort CandLe l).nodup_iff).mpr h

theorem parseAllBlobs_nodup (env : Env) (blobs : List Bytes) :
    (parseAllBlobs env blobs).Nodup := by
  unfold parseAllBlobs
  refine sortCandidates_nodup ?_
  have aux : ∀ (bs : List (List String)) (s : List String),
      s.Nodup → (bs.foldl extendUnique s).Nodup := by
    intro bs
    induction bs with
    | nil => intro s h; simpa using h
    | cons b bs ih =>
      intro s h
      rw [List.foldl_cons]
      exact ih _ (extendUnique_nodup b s h)
  exact aux _ [] List.nodup_nil

theorem parseAllBlobs_sorted (env : Env) (blobs : List Bytes) :
    List.Sorted CandLe (parseAllBlobs env blobs) :=
  sortCandidates_sorted _

theorem scanContentLoop_go (cands : List String) :
    ∀ (l t : List String), cands.Nodup →
      cands.foldl
          (fun acc c => if c ∈ acc.2 then acc else (acc.1 ++ [c], acc.2 ++ [c]))
          (l, t)
        = (l ++ cands.filter (fun c => decide (c ∉ t)),
           t ++ cands.filter (fun c => decide (c ∉ t))) := by
  induction cands with
  | nil => intro l t _; simp
  | cons c cs ih =>
    intro l t h
    have hc : c ∉ cs := (List.nodup_cons.mp h).1
    have hcs : cs.Nodup := (List.nodup_cons.mp h).2
    rw [List.foldl_cons]
    by_cases hmem : c ∈ t
    · simp only [hmem, if_true]
      rw [ih l t hcs]
      simp [List.filter_cons, hmem]
    · simp only [hmem, if_false]
      rw [ih (l ++ [c]) (t ++ [c]) hcs]
      have hfilter : cs.filter (fun x => decide (x ∉ t ++ [c]))
          = cs.filter (fun x => decide (x ∉ t)) := by
        refine List.filter_congr ?_
        intro x hx
        have hxc : x ≠ c := fun hxeq => hc (hxeq ▸ hx)
        simp [List.mem_append, hxc]
      rw [hfilter]
      simp [List.filter_cons, hmem, List.append_assoc]

theorem scanContentLoop_eq {cands : List String} (s : List String)
    (h : cands.Nodup) :
    scanContentLoop cands s
      = (cands.filter (fun c => decide (c ∉ s)),
         s ++ cands.filter (fun c => decide (c ∉ s))) := by
  unfold scanContentLoop
  simpa using scanContentLoop_go cands [] s h

theorem changedOf_go_snd (fs : FileSystem) (now : Nat) :
    ∀ (files : List String) (acc : List ChangedContent × (String → Option Nat))
      (p : String),
      ((files.foldl (changedStep fs now) acc).2) p
        = if p ∈ files then some ((fs.mtime p).getD now) else acc.2 p
  | [], acc, p => by simp
  | q :: rest, acc, p => by
    rw [List.foldl_cons, changedOf_go_snd fs now rest]
    by_cases hp : p ∈ rest
    · simp [hp, List.mem_cons]
    · by_cases hpq : p = q
      · subst hpq
        simp [changedStep, List.mem_cons, hp]
      · simp [changedStep, hpq, List.mem_cons, hp]

theorem changedOf_go_fst (fs : FileSystem) (now : Nat) :
    ∀ (files : List String) (acc : List ChangedContent × (String → Option Nat)),
      (∀ p ∈ files, acc.2 p = some ((fs.mtime p).getD now)) →
      (files.foldl (changedStep fs now) acc).1 = acc.1
  | [], acc, _ => rfl
  | q :: rest, acc, h => by
    rw [List.foldl_cons]
    have hq : acc.2 q = some ((fs.mtime q).getD now) := h q (List.mem_cons_self q rest)
    have hstep : changedStep fs now acc q
        = (acc.1, fun p => if p = q then some ((fs.mtime q).getD now) else acc.2 p) := by
      simp [changedStep, hq]
    rw [hstep]
    refine changedOf_go_fst fs now rest _ ?_
    intro p hp
    by_cases hpq : p = q
    · subst hpq; simp
    · simpa [hpq] using h p (List.mem_cons_of_mem q hp)

theorem changedOf_fst_nil {fs : FileSystem} {now : Nat} {files : List String}
    {m : String → Option Nat}
    (h : ∀ p ∈ files, m p = some ((fs.mtime p).getD now)) :
    (changedOf fs now files m).1 = [] :=
  changedOf_go_fst fs now files ([], m) h

theorem changedOf_snd (fs : FileSystem) (now : Nat) (files : List String)
    (m : String → Option Nat) (p : String) :
    (changedOf fs now files m).2 p
      = if p ∈ files then some ((fs.mtime p).getD now) else m p :=
  changedOf_go_snd fs now files ([], m) p

theorem trimEndMatchesS_of_not_endsWith {s suffix : String}
    (h : endsWithS s suffix = false) : trimEndMatchesS s suffix = s := by
  unfold trimEndMatchesS
  have haux : ∀ fuel, trimEndMatchesAux suffix.data fuel s.data = s.data := by
    intro fuel
    cases fuel with
    | zero => rfl
    | succ n =>
      unfold trimEndMatchesAux
      have hsuf : suffix.data.isSuffixOf s.data = false := by
        simpa [endsWithS] using h
      simp [hsuf]
  rw [haux]

/-! Claim theorems. -/

/-- C1: for every scanner state and batch of changed content, scan_content
returns exactly the extracted candidates not already in the accumulated
set, the union of the prior set with the returned list is the post-call
set, and the returned list is disjoint from the prior set. -/
theorem scan_content_new_candidates (env : Env) (st : Scanner)
    (cc : List ChangedContent) :
    (scanContent env st cc).1
      = (parseAllBlobs env (readAllFiles env.fs cc)).filter
          (fun c => decide (c ∉ st.candidates))
    ∧ ((scanContent env st cc).2.candidates).toFinset
      = st.candidates.toFinset ∪ ((scanContent env st cc).1).toFinset
    ∧ ∀ c ∈ (scanContent env st cc).1, c ∉ st.candidates := by
  have hnodup := parseAllBlobs_nodup env (readAllFiles env.fs cc)
  have hloop := scanContentLoop_eq ((prepare env st).candidates) hnodup
  rw [prepare_candidates env st] at hloop
  have e1 : (scanContent env st cc).1
      = (scanContentLoop (parseAllBlobs env (readAllFiles env.fs cc))
          (prepare env st).candidates).1 := rfl
  have e2 : (scanContent env st cc).2.candidates
      = (scanContentLoop (parseAllBlobs env (readAllFiles env.fs cc))
          (prepare env st).candidates).2 := rfl
  rw [prepare_candidates env st] at e1 e2
  refine ⟨?_, ?_, ?_⟩
  · rw [e1, hloop]
  · rw [e1, e2, hloop]
    exact List.toFinset_append
  · intro c hc
    rw [e1, hloop] at hc
    exact of_decide_eq_true (List.mem_filter.mp hc).2

/-- C10: the list returned by scan_content is sorted in byte-wise
lexicographic order and free of duplicates: the merged extraction result is
sorted and deduplicated before the newly-seen filter, which preserves both. -/
theorem scan_content_sorted_nodup (env : Env) (st : Scanner)
    (cc : List ChangedContent) :
    List.Sorted CandLe ((scanContent env st cc).1)
    ∧ ((scanContent env st cc).1).Nodup := by
  have hnodup := parseAllBlobs_nodup env (readAllFiles env.fs cc)
  have hsorted := parseAllBlobs_sorted env (readAllFiles env.fs cc)
  have hloop := scanContentLoop_eq ((prepare env st).candidates) hnodup
  have e1 : (scanContent env st cc).1
      = (scanContentLoop (parseAllBlobs env (readAllFiles env.fs cc))
          (prepare env st).candidates).1 := rfl
  rw [e1, hloop]
  constructor
  · exact List.Pairwise.sublist (List.filter_sublist _) hsorted
  · exact List.Nodup.sublist (List.filter_sublist _) hnodup

/-- C6: the accumulated candidate set only grows: scan and scan_content
only add candidates, and the three getters leave the set unchanged. -/
theorem candidates_only_grow (env : Env) (now : Nat) (st : Scanner)
    (cc : List ChangedContent) (c : ChangedContent) :
    st.candidates ⊆ (scan env now st).2.candidates
    ∧ st.candidates ⊆ (scanContent env st cc).2.candidates
    ∧ (getCandidatesWithPositions env st c).2.candidates = st.candidates
    ∧ (getFiles env st).2.candidates = st.candidates
    ∧ (getGlobs env st).2.candidates = st.candidates := by
  refine ⟨?_, ?_, prepare_candidates env st, prepare_candidates env st,
    prepare_candidates env st⟩
  · have e : (scan env now st).2 = computeCandidates env now (prepare env st) := rfl
    rw [e]
    have hc : st.candidates = (prepare env st).candidates :=
      (prepare_candidates env st).symm
    rw [hc]
    generalize prepare env st = st'
    unfold computeCandidates
    dsimp only
    split
    · exact fun a ha => ha
    · exact extendUnique_subset _ _
  · have e : (scanContent env st cc).2.candidates
        = (scanContentLoop (parseAllBlobs env (readAllFiles env.fs cc))
            (prepare env st).candidates).2 := rfl
    rw [e, scanContentLoop_eq _ (parseAllBlobs_nodup env _),
      prepare_candidates env st]
    exact List.subset_append_left _ _

/-- C8: get_candidates_with_positions returns the positional extraction of
the read/normalized single item and leaves the accumulated candidate set
unchanged. -/
theorem get_candidates_with_positions_spec (env : Env) (st : Scanner)
    (c : ChangedContent) :
    (getCandidatesWithPositions env st c).1
      = env.extractPos ((readChangedContent env.fs c).getD [])
    ∧ (getCandidatesWithPositions env st c).2.candidates = st.candidates :=
  ⟨rfl, prepare_candidates env st⟩

/-- C5: prepare is idempotent: after any call the scanner is Ready,
a second call returns the state unchanged (so the resolved file and glob
lists are computed at most once), and a call on an already-ready scanner
is a no-op. -/
theorem prepare_idempotent (env : Env) (st : Scanner) :
    (prepare env st).ready = true
    ∧ prepare env (prepare env st) = prepare env st
    ∧ prepare env { st with ready := true } = { st with ready := true } :=
  ⟨prepare_ready env st,
   prepare_eq_of_ready env (prepare_ready env st),
   prepare_eq_of_ready env rfl⟩

/-- C4: the auto-detect classification used to partition expanded sources
is equivalent to: the pattern ends with the trailing recursive wildcard, or
base joined with the wildcard-stripped pattern is an existing directory.
The source checks the unstripped pattern, but in the branch where the
directory probe runs the pattern has no trailing wildcard, so stripping is
the identity; `FileSystem.isDir` is total (Rust `is_dir` returns `false`
for non-existent paths), so a non-existent joined path simply classifies
the entry as an explicit glob, never an error. -/
theorem auto_detect_classification (fs : FileSystem) (s : GlobEntry) :
    autoDetectEligible fs s
      = (endsWithS s.pattern "**/*"
          || fs.isDir (joinPath s.base (trimEndMatchesS s.pattern "**/*"))) := by
  unfold autoDetectEligible
  by_cases h : endsWithS s.pattern "**/*"
  · simp [h]
  · have h' : endsWithS s.pattern "**/*" = false := by simpa using h
    rw [trimEndMatchesS_of_not_endsWith h']
    simp only [h', Bool.false_or, if_false]
    by_cases hd : fs.isDir (joinPath s.base s.pattern) <;> simp [hd]

/-- C7: a source whose pattern fails to parse as a brace-alternation
expression is passed through brace expansion unchanged, with base and
pattern verbatim, and never causes an error. -/
theorem brace_expansion_passthrough (env : Env) (source : GlobEntry)
    (h : env.bexpand source.pattern = none) :
    expandSource env source = [source] := by
  simp [expandSource, h]

theorem brace_expansion_passthrough_witness :
    sampleEnv.bexpand (GlobEntry.mk "b" "p").pattern = none
    ∧ expandSource sampleEnv ⟨"b", "p"⟩ = [⟨"b", "p"⟩] :=
  ⟨rfl, brace_expansion_passthrough sampleEnv ⟨"b", "p"⟩ rfl⟩

/-- C2: when every file of the frozen list has an observable, unchanged
modification time between two scan calls on the same scanner (the
filesystem argument is literally the same, so mtimes and contents are
unchanged), the second call queues no file for re-reading and both calls
return the identical sorted candidate list. -/
theorem scan_twice_no_fs_changes (env : Env) (now₁ now₂ : Nat) (st₀ : Scanner)
    (H : ∀ p ∈ (scan env now₁ st₀).2.files, (env.fs.mtime p).isSome = true) :
    (changedOf env.fs now₂ (scan env now₁ st₀).2.files
        (scan env now₁ st₀).2.mtimes).1 = []
    ∧ (scan env now₂ (scan env now₁ st₀).2).1 = (scan env now₁ st₀).1 := by
  have e2 : (scan env now₁ st₀).2
      = computeCandidates env now₁ (prepare env st₀) := rfl
  have hfiles : (scan env now₁ st₀).2.files = (prepare env st₀).files := by
    rw [e2]; exact computeCandidates_files env now₁ (prepare env st₀)
  have hmt : (scan env now₁ st₀).2.mtimes
      = (changedOf env.fs now₁ (prepare env st₀).files
          (prepare env st₀).mtimes).2 := by
    rw [e2]; exact computeCandidates_mtimes env now₁ (prepare env st₀)
  have hready : (scan env now₁ st₀).2.ready = true := by
    rw [e2, computeCandidates_ready]; exact prepare_ready env st₀
  have hmem : ∀ p ∈ (scan env now₁ st₀).2.files,
      (scan env now₁ st₀).2.mtimes p = some ((env.fs.mtime p).getD now₂) := by
    intro p hp
    obtain ⟨t, ht⟩ := Option.isSome_iff_exists.mp (H p hp)
    rw [hfiles] at hp
    rw [hmt, changedOf_snd, if_pos hp, ht]
    rfl
  have hnil : (changedOf env.fs now₂ (scan env now₁ st₀).2.files
      (scan env now₁ st₀).2.mtimes).1 = [] :=
    changedOf_fst_nil hmem
  refine ⟨hnil, ?_⟩
  have hprep2 : prepare env (scan env now₁ st₀).2 = (scan env now₁ st₀).2 :=
    prepare_eq_of_ready env hready
  have e3 : (scan env now₂ (scan env now₁ st₀).2).1
      = sortCandidates (computeCandidates env now₂
          (prepare env (scan env now₁ st₀).2)).candidates := rfl
  rw [e3, hprep2]
  have hcands : (computeCandidates env now₂ (scan env now₁ st₀).2).candidates
      = (scan env now₁ st₀).2.candidates := by
    unfold computeCandidates
    dsimp only
    rw [hnil]
    rfl
  rw [hcands]
  rfl

theorem scan_twice_no_fs_changes_witness :
    (changedOf sampleEnv.fs 2 (scan sampleEnv 1 sampleScanner).2.files
        (scan sampleEnv 1 sampleScanner).2.mtimes).1 = []
    ∧ (scan sampleEnv 2 (scan sampleEnv 1 sampleScanner).2).1
      = (scan sampleEnv 1 sampleScanner).1 :=
  scan_twice_no_fs_changes sampleEnv 1 2 sampleScanner (by decide)

/-- C3 counterexample: at a concrete input carrying both a file path and
inline content, read_changed_content uses the inline content, not the
(differing) file bytes: the file path does not take precedence, refuting
the claim that content is used only when no file path is given. -/
theorem inline_content_used_despite_file :
    (readChangedContent svelteFs
        { file := some "a.svelte", content := some "ok" }
      = some (strBytes "ok"))
    ∧ readChangedContent svelteFs
        { file := some "a.svelte", content := some "ok" }
      ≠ readChangedContent svelteFs
        { file := some "a.svelte", content := none } := by
  constructor
  · rfl
  · decide

/-- C3 amended: inline content takes precedence: whenever content is
present it is used (byte-for-byte), regardless of any file path; the file
is read only when content is absent. -/
theorem inline_content_precedence (fs : FileSystem) (f : Option String)
    (s : String) :
    readChangedContent fs { file := f, content := some s }
      = some (strBytes s) := rfl

/-- C9: the svelte normalization runs only on bytes read from disk: inline
content is used unmodified even when a svelte file path is also supplied,
while a disk read maps the content through the class-shorthand replacement
exactly when the file extension is svelte. -/
theorem svelte_normalization_only_on_disk (fs : FileSystem) (p s : String) :
    readChangedContent fs { file := some p, content := some s }
      = some (strBytes s)
    ∧ readChangedContent fs { file := some p, content := none }
      = (fs.read p).map (fun content =>
          if pathExtension p = some "svelte"
          then replaceSeq (strBytes " class:") (strBytes " ") content
          else content) := by
  refine ⟨rfl, ?_⟩
  unfold readChangedContent
  dsimp only
  cases fs.read p with
  | none => rfl
  | some content =>
    cases hext : pathExtension p with
    | none => simp [hext]
    | some ext =>
      by_cases h : ext = "svelte"
      · subst h; simp
      · simp [h]
